import Mathlib

/-!
Shallow embedding of `GCEm/sampler.py` (the implausibility-based constraint
engine and rejection sampler of the ESEm repository).

Modelling conventions:
* Machine floats are idealised as exact rationals extended with the IEEE-754
  special values `+inf`, `-inf` and `nan` (type `FVal`); arithmetic on the
  special values follows IEEE-754 (`x/0` is `±inf` for `x ≠ 0` and `nan` for
  `0/0`; comparisons with `nan` are false).  `tf.sqrt` is modelled by
  `Rat.sqrt`, a deterministic rational approximation; none of the properties
  proved below depend on the values `sqrt` takes.
* 1-D tensors are `List`s, 2-D tensors are `List`s of rows.  Elementwise
  binary operations use numpy/TensorFlow broadcasting (`bcast1`, `bcastMat`):
  lengths must agree or one of them must be 1; anything else is a shape
  error, modelled by `Option.none`.  Stacking per-row predictions into a
  tensor requires rectangularity (`stackRect`).
* The emulator collaborator (`model._tf_predict`) predicts each parameter
  sample independently; it is modelled by a per-row function `Model.predictOne`
  mapped over the batch.  The progress-bar wrapper (`tf_tqdm`) observes
  batches without altering them and the GPU device context has no numeric
  effect; both are omitted.
* The unbounded `tf.while_loop` retry in `get_valid_sample` is modelled with
  explicit fuel, and the prior distribution by a stream `ℕ → List ℚ` of draws
  consumed in order.
-/

attribute [local semireducible] Rat.add Rat.sub Rat.mul Rat.inv Rat.ofScientific

/-- An idealised IEEE-754 value: an exact rational, `+∞`, `-∞` or `NaN`. -/
inductive FVal where
  | fin : ℚ → FVal
  | pinf : FVal
  | ninf : FVal
  | nan : FVal
deriving DecidableEq, Repr

namespace FVal

/-- IEEE addition (`tf.add`), with exact finite arithmetic. -/
def fadd : FVal → FVal → FVal
  | fin a, fin b => fin (a + b)
  | fin _, pinf => pinf
  | fin _, ninf => ninf
  | pinf, fin _ => pinf
  | ninf, fin _ => ninf
  | pinf, pinf => pinf
  | ninf, ninf => ninf
  | pinf, ninf => nan
  | ninf, pinf => nan
  | nan, _ => nan
  | _, nan => nan

/-- IEEE subtraction (`tf.subtract`), with exact finite arithmetic. -/
def fsub : FVal → FVal → FVal
  | fin a, fin b => fin (a - b)
  | fin _, pinf => ninf
  | fin _, ninf => pinf
  | pinf, fin _ => pinf
  | ninf, fin _ => ninf
  | pinf, ninf => pinf
  | ninf, pinf => ninf
  | pinf, pinf => nan
  | ninf, ninf => nan
  | nan, _ => nan
  | _, nan => nan

/-- IEEE absolute value (`tf.abs`). -/
def fabs : FVal → FVal
  | fin a => fin |a|
  | pinf => pinf
  | ninf => pinf
  | nan => nan

/-- IEEE division (`tf.divide`): `x / 0` is `±∞` for finite `x ≠ 0` and
`NaN` for `0 / 0`; exact finite arithmetic otherwise. -/
def fdiv : FVal → FVal → FVal
  | fin a, fin b =>
      if b ≠ 0 then fin (a / b)
      else if a > 0 then pinf
      else if a < 0 then ninf
      else nan
  | fin _, pinf => fin 0
  | fin _, ninf => fin 0
  | pinf, fin b => if b < 0 then ninf else pinf
  | ninf, fin b => if b < 0 then pinf else ninf
  | pinf, pinf => nan
  | pinf, ninf => nan
  | ninf, pinf => nan
  | ninf, ninf => nan
  | nan, _ => nan
  | _, nan => nan

/-- IEEE square root (`tf.sqrt`); the finite case is approximated by the
deterministic rational square root `Rat.sqrt`. -/
def fsqrt : FVal → FVal
  | fin a => if a < 0 then nan else fin (Rat.sqrt a)
  | pinf => pinf
  | ninf => nan
  | nan => nan

/-- IEEE strict greater-than (`tf.greater`): any comparison with `NaN` is
false. -/
def fgt : FVal → FVal → Bool
  | fin a, fin b => a > b
  | fin _, pinf => false
  | fin _, ninf => true
  | pinf, fin _ => true
  | pinf, ninf => true
  | pinf, pinf => false
  | ninf, _ => false
  | nan, _ => false
  | _, nan => false

end FVal

open FVal

/-- Inject a list of exact rationals into `FVal` (a finite float tensor). -/
def fvec (xs : List ℚ) : List FVal := xs.map FVal.fin

/-- Numpy/TensorFlow broadcasting for a 1-D elementwise binary operation:
the lengths must agree, or the length-1 operand is broadcast; any other
combination is a shape error (`none`). -/
def bcast1 {α β : Type} (f : α → α → β) (xs ys : List α) : Option (List β) :=
  if xs.length = ys.length then some (List.zipWith f xs ys)
  else
    match xs, ys with
    | [x], ys => some (ys.map (fun y => f x y))
    | xs, [y] => some (xs.map (fun x => f x y))
    | _, _ => none

/-- Row pairing for 2-D numpy/TensorFlow broadcasting: row counts must
agree or the single-row operand is repeated; anything else is a shape
error. -/
def bcastRows {α : Type} (A B : List (List α)) :
    Option (List (List α × List α)) :=
  if A.length = B.length then some (A.zip B)
  else
    match A, B with
    | [a], B => some (B.map (fun b => (a, b)))
    | A, [b] => some (A.map (fun a => (a, b)))
    | _, _ => none

/-- Numpy/TensorFlow broadcasting for a 2-D elementwise binary operation:
pair up the rows with `bcastRows`, then broadcast each pair with
`bcast1`. -/
def bcastMat {α β : Type} (f : α → α → β) (A B : List (List α)) :
    Option (List (List β)) :=
  (bcastRows A B).bind (fun ps => ps.mapM (fun p => bcast1 f p.1 p.2))

/-- A tensor stacked from per-row predictions must be rectangular. -/
def stackRect {α : Type} (rows : List (List α)) : Option (List (List α)) :=
  match rows with
  | [] => some []
  | r :: rs => if rs.all (fun s => s.length = r.length) then some (r :: rs) else none

/-- The number of columns of a (rectangular) matrix, `tf.shape(m)[1]`. -/
def ncols (M : List (List FVal)) : ℕ := (M.headD []).length

/-- The number of entries of a row strictly greater than the threshold:
`tf.reduce_sum(tf.cast(tf.greater(row, threshold), ...))`. -/
def rowCountGT (threshold : ℚ) (row : List FVal) : ℕ :=
  row.countP (fun x => fgt x (FVal.fin threshold))

/-- `constrain(implausibility, tolerance, threshold)` from `sampler.py`:
one boolean per row, true iff the number of entries greater than `threshold`
is at most `tolerance * shape[1]`. -/
def constrain (implausibility : List (List FVal)) (tolerance threshold : ℚ) :
    List Bool :=
  implausibility.map
    (fun row =>
      decide ((rowCountGT threshold row : ℚ) ≤ tolerance * (ncols implausibility : ℚ)))

/-- `_calc_implausibility(emulator_mean, obs, tot_sd)` from `sampler.py` on
1-D tensors: `tf.divide(tf.abs(tf.subtract(emulator_mean, obs)), tot_sd)`. -/
def calc_implausibility1 (emulator_mean obs tot_sd : List FVal) :
    Option (List FVal) := do
  let diff ← bcast1 fsub emulator_mean obs
  bcast1 fdiv (diff.map fabs) tot_sd

/-- `_calc_implausibility(emulator_mean, obs, tot_sd)` from `sampler.py` on a
batch: the N×O mean matrix minus the length-O observation row, elementwise
absolute value, divided by the N×O total standard deviation. -/
def calc_implausibility (emulator_mean : List (List FVal)) (obs : List FVal)
    (tot_sd : List (List FVal)) : Option (List (List FVal)) := do
  let diff ← bcastMat fsub emulator_mean [obs]
  bcastMat fdiv (diff.map (fun r => r.map fabs)) tot_sd

/-- The emulator collaborator: `n_params` free parameters and a per-sample
prediction `params ↦ (mean, variance)`; `model._tf_predict` on a batch maps
`predictOne` over the rows. -/
structure Model where
  n_params : ℕ
  predictOne : List ℚ → List FVal × List FVal

/-- The emulator contract that predictions for every sample have the same
fixed number `W` of output points (its tensors are rectangular). -/
def Model.PredictsWidth (m : Model) (W : ℕ) : Prop :=
  ∀ x : List ℚ, (m.predictOne x).1.length = W ∧ (m.predictOne x).2.length = W

/-- Structural-recursion helper for `chunk`: the fuel is an upper bound on
the list length, so the fuel-exhausted branch is never reached. -/
def chunkAux {α : Type} (batch_size : ℕ) : ℕ → List α → List (List α)
  | _, [] => []
  | 0, xs => [xs]
  | fuel + 1, x :: xs =>
      (x :: xs.take (batch_size - 1)) :: chunkAux batch_size fuel (xs.drop (batch_size - 1))

/-- `tf.data.Dataset.batch(batch_size)`: split a list into consecutive
chunks of at most `batch_size` elements (at least 1), preserving order. -/
def chunk {α : Type} (batch_size : ℕ) (xs : List α) : List (List α) :=
  chunkAux batch_size xs.length xs

/-- The shared body of the batch loops in `_tf_constrain` and
`_tf_implausibility`: predict the batch, form
`tot_sd = tf.sqrt(tf.add(emulator_var, total_variance))` (with
`total_variance` of shape `(1, O)`), and compute the implausibility. -/
def batchStep (model : Model) (obs : List ℚ) (total_variance : List ℚ)
    (data : List (List ℚ)) : Option (List (List FVal)) := do
  let preds := data.map model.predictOne
  let emulator_mean ← stackRect (preds.map Prod.fst)
  let emulator_var ← stackRect (preds.map Prod.snd)
  let sums ← bcastMat fadd emulator_var [fvec total_variance]
  let tot_sd := sums.map (fun r => r.map fsqrt)
  calc_implausibility emulator_mean (fvec obs) tot_sd

/-- `_tf_implausibility(model, obs, sample_points, total_variance,
batch_size, pbar)`: evaluate the batches in order and concatenate the
implausibility matrices into the accumulator `tf.zeros((0, obs.shape[0]))`;
`tf.concat` requires each batch result to have `obs.shape[0]` columns. -/
def tf_implausibility (model : Model) (obs : List ℚ)
    (sample_points : List (List ℚ)) (total_variance : List ℚ)
    (batch_size : ℕ) : Option (List (List FVal)) :=
  (chunk batch_size sample_points).foldlM
    (fun acc data => do
      let implausibility ← batchStep model obs total_variance data
      if implausibility.all (fun r => r.length = obs.length) then
        pure (acc ++ implausibility)
      else
        none)
    []

/-- `_tf_constrain(model, obs, sample_points, total_variance, tolerance,
threshold, batch_size, pbar)`: evaluate the batches in order, apply
`constrain` to each batch implausibility and concatenate the boolean
vectors (accumulator `tf.zeros((0,), tf.bool)`). -/
def tf_constrain (model : Model) (obs : List ℚ)
    (sample_points : List (List ℚ)) (total_variance : List ℚ)
    (tolerance threshold : ℚ) (batch_size : ℕ) : Option (List Bool) :=
  (chunk batch_size sample_points).foldlM
    (fun acc data => do
      let implausibility ← batchStep model obs total_variance data
      pure (acc ++ constrain implausibility tolerance threshold))
    []

/-- `is_valid_sample(model, obs, sample, threshold, tolerance,
total_variance)`: predict the single sample reshaped to one row, compute its
implausibility and return entry `[0]` of `constrain`. -/
def is_valid_sample (model : Model) (obs : List ℚ) (sample : List ℚ)
    (threshold tolerance : ℚ) (total_variance : List ℚ) : Option Bool := do
  let implausibility ← batchStep model obs total_variance [sample]
  (constrain implausibility tolerance threshold).head?

/-- `get_valid_sample(model, obs, dist, threshold, tolerance,
total_variance)`: draw from the prior stream at the current position and
redraw while `is_valid_sample` is false (`tf.while_loop`, modelled with
fuel); returns the accepted draw and the next stream position. -/
def get_valid_sample (model : Model) (obs : List ℚ) (dist : ℕ → List ℚ)
    (threshold tolerance : ℚ) (total_variance : List ℚ) :
    ℕ → ℕ → Option (List ℚ × ℕ)
  | _, 0 => none
  | k, fuel + 1 => do
      let x := dist k
      let v ← is_valid_sample model obs x threshold tolerance total_variance
      if v then pure (x, k + 1)
      else get_valid_sample model obs dist threshold tolerance total_variance (k + 1) fuel

/-- The `tf.while_loop` of `_tf_sample`: repeat `n` times, appending each
accepted sample to the accumulator `tf.zeros((0, 2))`; `tf.concat` and the
shape invariant `TensorShape([None, 2])` require every accepted sample to
have exactly 2 entries. -/
def tf_sample_loop (model : Model) (obs : List ℚ) (dist : ℕ → List ℚ)
    (total_variance : List ℚ) (tolerance threshold : ℚ) (fuel : ℕ) :
    ℕ → ℕ → List (List ℚ) → Option (List (List ℚ))
  | 0, _, acc => some acc
  | n + 1, k, acc => do
      let xk ← get_valid_sample model obs dist threshold tolerance total_variance k fuel
      if xk.1.length = 2 then
        tf_sample_loop model obs dist total_variance tolerance threshold fuel n xk.2 (acc ++ [xk.1])
      else
        none

/-- `_tf_sample(model, obs, dist, n_sample_points, total_variance,
tolerance, threshold)`: collect `n_sample_points` accepted draws in order. -/
def tf_sample (model : Model) (obs : List ℚ) (dist : ℕ → List ℚ)
    (n_sample_points : ℕ) (total_variance : List ℚ)
    (tolerance threshold : ℚ) (fuel : ℕ) : Option (List (List ℚ)) :=
  tf_sample_loop model obs dist total_variance tolerance threshold fuel n_sample_points 0 []

/-- A fractional uncertainty source: a python scalar or a numpy vector. -/
inductive UncSpec where
  | scalar : ℚ → UncSpec
  | vec : List ℚ → UncSpec
deriving DecidableEq, Repr

/-- `np.reshape(np.square(obs.data * unc), (1, obs.shape[0]))` from
`Sampler.__init__` for one uncertainty source: numpy broadcasting for the
product, elementwise square, and the reshape to `(1, O)` which fails unless
the result has exactly `O` entries. -/
def srcVariance (obs : List ℚ) : UncSpec → Option (List ℚ)
  | .scalar v => some (obs.map (fun o => (o * v) ^ 2))
  | .vec vs => do
      let prod ← bcast1 (fun a b => a * b) obs vs
      let sq := prod.map (fun x => x ^ 2)
      if sq.length = obs.length then some sq else none

/-- `self.total_var = sum([observational_var, respres_var, interann_var,
struct_var])` from `Sampler.__init__`: the four per-source variances (in the
source's order of computation) summed elementwise. -/
def total_var (obs : List ℚ)
    (obs_uncertainty interann_uncertainty repres_uncertainty struct_uncertainty : UncSpec) :
    Option (List ℚ) := do
  let observational_var ← srcVariance obs obs_uncertainty
  let respres_var ← srcVariance obs repres_uncertainty
  let interann_var ← srcVariance obs interann_uncertainty
  let struct_var ← srcVariance obs struct_uncertainty
  pure (List.zipWith (· + ·)
        (List.zipWith (· + ·)
          (List.zipWith (· + ·) observational_var respres_var)
          interann_var)
        struct_var)

/-- The per-source fractional uncertainty applied at observation point `i`:
a scalar applies uniformly, a vector pointwise. -/
def UncSpec.at : UncSpec → ℕ → ℚ
  | .scalar v, _ => v
  | .vec vs, i => vs.getD i 0

/-- An uncertainty source is a scalar or a vector of the observation's
length `O`. -/
def UncSpec.ok (O : ℕ) : UncSpec → Prop
  | .scalar _ => True
  | .vec vs => vs.length = O

instance (O : ℕ) (u : UncSpec) : Decidable (u.ok O) := by
  cases u <;> simp [UncSpec.ok] <;> infer_instance

/-- A rectangular nonempty matrix has `ncols` equal to its common row width. -/
theorem ncols_of_rect {M : List (List FVal)} {O : ℕ}
    (h : ∀ r ∈ M, r.length = O) (hne : M ≠ []) : ncols M = O := by
  cases M with
  | nil => exact absurd rfl hne
  | cons r rs => exact h r (List.mem_cons_self r rs)

/-- `constrain` maps each row independently to its acceptance decision. -/
theorem constrain_getElem? (M : List (List FVal)) (tolerance threshold : ℚ) (i : ℕ) :
    (constrain M tolerance threshold)[i]? =
      (M[i]?).map
        (fun row =>
          decide ((rowCountGT threshold row : ℚ) ≤ tolerance * (ncols M : ℚ))) := by
  simp [constrain]

/-- C1: for every N×O implausibility matrix, tolerance in `[0,1]` and
threshold ≥ 0, `constrain` returns one boolean per sample, true exactly when
the number of entries of that sample's row strictly greater than the
threshold is at most `tolerance * O`. -/
theorem constrain_accepts_iff (M : List (List FVal)) (O : ℕ) (tolerance threshold : ℚ)
    (hrect : ∀ r ∈ M, r.length = O)
    (htol0 : 0 ≤ tolerance) (htol1 : tolerance ≤ 1) (hth : 0 ≤ threshold) :
    (constrain M tolerance threshold).length = M.length ∧
    ∀ i, i < M.length →
      ((constrain M tolerance threshold).getD i false = true ↔
        ((((M.getD i []).filter (fun x => fgt x (FVal.fin threshold))).length : ℚ)
          ≤ tolerance * (O : ℚ))) := by
  constructor
  · simp [constrain]
  · intro i hi
    have hne : M ≠ [] := by
      intro h
      simp [h] at hi
    have hO : ncols M = O := ncols_of_rect hrect hne
    rw [List.getD_eq_getElem?_getD, List.getD_eq_getElem?_getD, constrain_getElem?,
      List.getElem?_eq_getElem hi]
    simp [hO, rowCountGT, List.countP_eq_length_filter,
      List.getElem?_eq_getElem hi]

/-- Strict greater-than against a larger finite threshold implies it against
a smaller one. -/
theorem fgt_fin_mono {x : FVal} {th1 th2 : ℚ} (h : th1 ≤ th2)
    (hx : fgt x (FVal.fin th2) = true) : fgt x (FVal.fin th1) = true := by
  cases x <;> simp [fgt] at hx ⊢
  exact lt_of_le_of_lt h hx

/-- C5: with everything else fixed, raising the tolerance never loses an
accepted sample, and raising the threshold never loses an accepted sample. -/
theorem constrain_monotone (M : List (List FVal)) (tol1 tol2 th1 th2 : ℚ)
    (htol : tol1 ≤ tol2) (hth : th1 ≤ th2) :
    (∀ i, (constrain M tol1 th1).getD i false = true →
      (constrain M tol2 th1).getD i false = true) ∧
    (∀ i, (constrain M tol1 th1).getD i false = true →
      (constrain M tol1 th2).getD i false = true) := by
  constructor
  · intro i h
    rw [List.getD_eq_getElem?_getD, constrain_getElem?] at h ⊢
    cases hM : M[i]? with
    | none => rw [hM] at h; simp at h
    | some row =>
      rw [hM] at h
      simp only [Option.map_some', Option.getD_some, decide_eq_true_eq] at h ⊢
      exact h.trans (mul_le_mul_of_nonneg_right htol (Nat.cast_nonneg _))
  · intro i h
    rw [List.getD_eq_getElem?_getD, constrain_getElem?] at h ⊢
    cases hM : M[i]? with
    | none => rw [hM] at h; simp at h
    | some row =>
      rw [hM] at h
      simp only [Option.map_some', Option.getD_some, decide_eq_true_eq] at h ⊢
      refine le_trans ?_ h
      have : rowCountGT th2 row ≤ rowCountGT th1 row :=
        List.countP_mono_left (fun x _ hx => fgt_fin_mono hth hx)
      exact_mod_cast this

/-- C10: the acceptance decision for sample `i` depends only on row `i`, the
column count, the tolerance and the threshold. -/
theorem constrain_row_local (M1 M2 : List (List FVal)) (tolerance threshold : ℚ) (i : ℕ)
    (hcols : ncols M1 = ncols M2) (hrow : M1[i]? = M2[i]?) :
    (constrain M1 tolerance threshold)[i]? = (constrain M2 tolerance threshold)[i]? := by
  rw [constrain_getElem?, constrain_getElem?, hcols, hrow]

/-- C7: a NaN implausibility entry is never counted as exceeding the
threshold: the accepted/rejected decision of its row is the decision
obtained from the row's other entries (while the NaN entry still counts
towards the column total `O`). -/
theorem constrain_nan_compliant (tolerance threshold : ℚ)
    (A B : List (List FVal)) (pre post : List FVal) :
    (constrain (A ++ (pre ++ FVal.nan :: post) :: B) tolerance threshold).getD A.length false
      = decide ((rowCountGT threshold (pre ++ post) : ℚ)
          ≤ tolerance * (ncols (A ++ (pre ++ FVal.nan :: post) :: B) : ℚ)) := by
  rw [List.getD_eq_getElem?_getD, constrain_getElem?,
    List.getElem?_append_right (le_refl A.length)]
  simp only [Nat.sub_self, List.getElem?_cons_zero, Option.map_some', Option.getD_some]
  have hcount : rowCountGT threshold (pre ++ FVal.nan :: post)
      = rowCountGT threshold (pre ++ post) := by
    simp [rowCountGT, List.countP_append, List.countP_cons, fgt]
  rw [hcount]

/-- The implausibility matrix used by the repository's `test_constrain`. -/
def testImp : List (List FVal) :=
  [fvec [0, 0, 0, 0, 0], fvec [0, 1, 1, 1, 0], fvec [0, 0, 1, 0, 0]]

/-- Witness for C1 at the test suite's 3×5 matrix, tolerance 2/5 and
threshold 1/2. -/
theorem constrain_accepts_iff_witness :
    ((∀ r ∈ testImp, r.length = 5) ∧ (0:ℚ) ≤ 2/5 ∧ (2/5:ℚ) ≤ 1 ∧ (0:ℚ) ≤ 1/2) ∧
    ((constrain testImp (2/5) (1/2)).length = testImp.length ∧
      ∀ i, i < testImp.length →
        ((constrain testImp (2/5) (1/2)).getD i false = true ↔
          ((((testImp.getD i []).filter (fun x => fgt x (FVal.fin (1/2)))).length : ℚ)
            ≤ (2/5 : ℚ) * (5 : ℚ)))) :=
  ⟨⟨by decide, by norm_num, by norm_num, by norm_num⟩, by
    have h := constrain_accepts_iff testImp 5 (2/5) (1/2) (by decide)
      (by norm_num) (by norm_num) (by norm_num)
    simpa using h⟩

/-- Witness for C5 at the test suite's 3×5 matrix. -/
theorem constrain_monotone_witness :
    ((1:ℚ)/5 ≤ 2/5 ∧ (1:ℚ)/2 ≤ 3) ∧
    ((∀ i, (constrain testImp (1/5) (1/2)).getD i false = true →
        (constrain testImp (2/5) (1/2)).getD i false = true) ∧
     (∀ i, (constrain testImp (1/5) (1/2)).getD i false = true →
        (constrain testImp (1/5) 3).getD i false = true)) :=
  ⟨⟨by norm_num, by norm_num⟩,
    constrain_monotone testImp (1/5) (2/5) (1/2) 3 (by norm_num) (by norm_num)⟩

/-- Witness for C10: two 2×2 matrices that differ in row 0 but agree in
row 1 get the same decision at row 1. -/
theorem constrain_row_local_witness :
    (ncols [fvec [0, 0], fvec [1, 1]] = ncols [fvec [9, 9], fvec [1, 1]] ∧
      ([fvec [0, 0], fvec [1, 1]] : List (List FVal))[1]? = ([fvec [9, 9], fvec [1, 1]] : List (List FVal))[1]?) ∧
    (constrain [fvec [0, 0], fvec [1, 1]] 0 3)[1]? = (constrain [fvec [9, 9], fvec [1, 1]] 0 3)[1]? :=
  ⟨⟨by decide, by decide⟩,
    constrain_row_local [fvec [0, 0], fvec [1, 1]] [fvec [9, 9], fvec [1, 1]] 0 3 1
      (by decide) (by decide)⟩

/-- Broadcasting of equal-length vectors is plain `zipWith`. -/
theorem bcast1_eq_len {α β : Type} (f : α → α → β) {xs ys : List α}
    (h : xs.length = ys.length) :
    bcast1 f xs ys = some (List.zipWith f xs ys) := by
  simp [bcast1, h]

/-- Counterexample to C2 as stated: with zero total standard deviation and
`emulator_mean ≠ obs`, the implausibility is `+∞`, not NaN. -/
theorem calc_implausibility_zero_sd_not_nan :
    calc_implausibility1 [FVal.fin 2] [FVal.fin 1] [FVal.fin 0] = some [FVal.pinf] := by
  decide

/-- C2 (amended): for finite equal-length inputs the implausibility is
`|m-o|/s` where `s > 0`; where `s = 0` it is NaN if `m = o` and `+∞`
otherwise. -/
theorem calc_implausibility_spec (m o s : List ℚ)
    (h1 : m.length = o.length) (h2 : o.length = s.length) :
    ∃ r, calc_implausibility1 (fvec m) (fvec o) (fvec s) = some r ∧
      r.length = m.length ∧
      ∀ i, i < m.length →
        (0 < s.getD i 0 →
          r.getD i FVal.nan = FVal.fin (|m.getD i 0 - o.getD i 0| / s.getD i 0)) ∧
        (s.getD i 0 = 0 →
          r.getD i FVal.nan =
            if m.getD i 0 = o.getD i 0 then FVal.nan else FVal.pinf) := by
  have hmo : (fvec m).length = (fvec o).length := by simp [fvec, h1]
  set d := List.zipWith fsub (fvec m) (fvec o) with hd
  have hds : (d.map fabs).length = (fvec s).length := by
    simp [hd, fvec, List.length_zipWith, h1, h2]
  set r := List.zipWith fdiv (d.map fabs) (fvec s) with hr
  have hcalc : calc_implausibility1 (fvec m) (fvec o) (fvec s) = some r := by
    rw [calc_implausibility1, bcast1_eq_len fsub hmo]
    simp only [Option.bind_eq_bind, Option.some_bind]
    rw [bcast1_eq_len fdiv hds]
  have hrlen : r.length = m.length := by
    simp [hr, hd, fvec, List.length_zipWith, h1, h2]
  refine ⟨r, hcalc, hrlen, ?_⟩
  intro i hi
  have hio : i < o.length := by omega
  have his : i < s.length := by omega
  have hir : i < r.length := by omega
  have hfm : i < (fvec m).length := by simp [fvec]; omega
  have hfo : i < (fvec o).length := by simp [fvec]; omega
  have hfs : i < (fvec s).length := by simp [fvec]; omega
  have hrget : r.getD i FVal.nan = fdiv (fabs (fsub (FVal.fin (m.getD i 0)) (FVal.fin (o.getD i 0)))) (FVal.fin (s.getD i 0)) := by
    rw [List.getD_eq_getElem?_getD, List.getElem?_eq_getElem hir, Option.getD_some]
    simp only [hr, hd, List.getElem_zipWith, List.getElem_map]
    congr 2 <;>
      simp [fvec, List.getD_eq_getElem?_getD, List.getElem?_eq_getElem, hi, hio, his]
  rw [hrget]
  have h00 : ¬ ((0:ℚ) ≠ 0) := by norm_num
  constructor
  · intro hpos
    have hne : s.getD i 0 ≠ 0 := ne_of_gt hpos
    simp only [fsub, fabs]
    rw [fdiv, if_pos hne]
  · intro hzero
    rw [hzero]
    by_cases heq : m.getD i 0 = o.getD i 0
    · rw [if_pos heq, heq]
      simp only [fsub, sub_self, fabs, abs_zero]
      rw [fdiv, if_neg h00]
      norm_num
    · have hne0 : m.getD i 0 - o.getD i 0 ≠ 0 := sub_ne_zero_of_ne heq
      have habs : 0 < |m.getD i 0 - o.getD i 0| := abs_pos.mpr hne0
      rw [if_neg heq]
      simp only [fsub, fabs]
      rw [fdiv, if_neg h00, if_pos habs]

/-- Witness for C2 (amended) at the test suite's vectors
`m=[1,1,2,1,-2]`, `o=[1,1,1,2,1]`, `s=[1,2,1,1,1]`. -/
theorem calc_implausibility_spec_witness :
    (([1, 1, 2, 1, -2] : List ℚ).length = ([1, 1, 1, 2, 1] : List ℚ).length ∧
      ([1, 1, 1, 2, 1] : List ℚ).length = ([1, 2, 1, 1, 1] : List ℚ).length) ∧
    (∃ r, calc_implausibility1 (fvec [1, 1, 2, 1, -2]) (fvec [1, 1, 1, 2, 1]) (fvec [1, 2, 1, 1, 1]) = some r ∧
      r.length = ([1, 1, 2, 1, -2] : List ℚ).length ∧
      ∀ i, i < ([1, 1, 2, 1, -2] : List ℚ).length →
        (0 < ([1, 2, 1, 1, 1] : List ℚ).getD i 0 →
          r.getD i FVal.nan = FVal.fin
            (|([1, 1, 2, 1, -2] : List ℚ).getD i 0 - ([1, 1, 1, 2, 1] : List ℚ).getD i 0|
              / ([1, 2, 1, 1, 1] : List ℚ).getD i 0)) ∧
        (([1, 2, 1, 1, 1] : List ℚ).getD i 0 = 0 →
          r.getD i FVal.nan =
            if ([1, 1, 2, 1, -2] : List ℚ).getD i 0 = ([1, 1, 1, 2, 1] : List ℚ).getD i 0
            then FVal.nan else FVal.pinf)) :=
  ⟨⟨by decide, by decide⟩,
    calc_implausibility_spec [1, 1, 2, 1, -2] [1, 1, 1, 2, 1] [1, 2, 1, 1, 1]
      (by decide) (by decide)⟩

/-- One uncertainty source of valid shape yields the elementwise
`(obs * unc)^2` vector. -/
theorem srcVariance_ok (obs : List ℚ) (u : UncSpec) (h : u.ok obs.length) :
    ∃ v, srcVariance obs u = some v ∧ v.length = obs.length ∧
      ∀ i, i < obs.length → v.getD i 0 = (obs.getD i 0 * u.at i) ^ 2 := by
  cases u with
  | scalar c =>
      refine ⟨obs.map (fun x => (x * c) ^ 2), rfl, by simp, ?_⟩
      intro i hi
      rw [List.getD_eq_getElem?_getD, List.getElem?_eq_getElem (by simpa using hi),
        Option.getD_some, List.getElem_map,
        List.getD_eq_getElem?_getD, List.getElem?_eq_getElem hi, Option.getD_some]
      rfl
  | vec vs =>
      have hlen : vs.length = obs.length := h
      have hb : bcast1 (fun a b => a * b) obs vs
          = some (List.zipWith (fun a b => a * b) obs vs) :=
        bcast1_eq_len _ hlen.symm
      refine ⟨(List.zipWith (fun a b => a * b) obs vs).map (fun x => x ^ 2), ?_, ?_, ?_⟩
      · rw [srcVariance, hb]
        simp [List.length_zipWith, hlen]
      · simp [List.length_zipWith, hlen]
      · intro i hi
        have hiz : i < ((List.zipWith (fun a b => a * b) obs vs).map (fun x => x ^ 2)).length := by
          simp [List.length_zipWith, hlen]; omega
        rw [List.getD_eq_getElem?_getD, List.getElem?_eq_getElem hiz, Option.getD_some,
          List.getElem_map, List.getElem_zipWith]
        have hgo : obs[i] = obs.getD i 0 := by
          rw [List.getD_eq_getElem?_getD, List.getElem?_eq_getElem hi, Option.getD_some]
        have hgv : vs[i] = UncSpec.at (UncSpec.vec vs) i := by
          rw [UncSpec.at, List.getD_eq_getElem?_getD,
            List.getElem?_eq_getElem (by omega : i < vs.length), Option.getD_some]
        rw [hgo, hgv]

/-- C8: the total variance is the elementwise sum over the four fractional
uncertainty sources of `(obs * unc)^2`; all-zero sources give the zero
vector. -/
theorem total_var_spec (obs : List ℚ) (u1 u2 u3 u4 : UncSpec)
    (h1 : u1.ok obs.length) (h2 : u2.ok obs.length)
    (h3 : u3.ok obs.length) (h4 : u4.ok obs.length) :
    ∃ tv, total_var obs u1 u2 u3 u4 = some tv ∧ tv.length = obs.length ∧
      (∀ i, i < obs.length →
        tv.getD i 0 = (obs.getD i 0 * u1.at i) ^ 2 + (obs.getD i 0 * u2.at i) ^ 2
          + (obs.getD i 0 * u3.at i) ^ 2 + (obs.getD i 0 * u4.at i) ^ 2) ∧
      ((∀ i, u1.at i = 0 ∧ u2.at i = 0 ∧ u3.at i = 0 ∧ u4.at i = 0) →
        tv = List.replicate obs.length 0) := by
  obtain ⟨v1, hv1, hl1, he1⟩ := srcVariance_ok obs u1 h1
  obtain ⟨v2, hv2, hl2, he2⟩ := srcVariance_ok obs u2 h2
  obtain ⟨v3, hv3, hl3, he3⟩ := srcVariance_ok obs u3 h3
  obtain ⟨v4, hv4, hl4, he4⟩ := srcVariance_ok obs u4 h4
  set tv := List.zipWith (· + ·) (List.zipWith (· + ·) (List.zipWith (· + ·) v1 v3) v2) v4 with htv
  have htv_eq : total_var obs u1 u2 u3 u4 = some tv := by
    rw [total_var, hv1, hv3, hv2, hv4]
    rfl
  have htvlen : tv.length = obs.length := by
    simp [htv, List.length_zipWith, hl1, hl2, hl3, hl4]
  have helem : ∀ i, i < obs.length →
      tv.getD i 0 = (obs.getD i 0 * u1.at i) ^ 2 + (obs.getD i 0 * u2.at i) ^ 2
        + (obs.getD i 0 * u3.at i) ^ 2 + (obs.getD i 0 * u4.at i) ^ 2 := by
    intro i hi
    have hitv : i < tv.length := by omega
    rw [List.getD_eq_getElem?_getD, List.getElem?_eq_getElem hitv, Option.getD_some]
    simp only [htv, List.getElem_zipWith]
    rw [← he1 i hi, ← he2 i hi, ← he3 i hi, ← he4 i hi,
      List.getD_eq_getElem v1 0 (by omega : i < v1.length),
      List.getD_eq_getElem v2 0 (by omega : i < v2.length),
      List.getD_eq_getElem v3 0 (by omega : i < v3.length),
      List.getD_eq_getElem v4 0 (by omega : i < v4.length)]
    ring
  refine ⟨tv, htv_eq, htvlen, helem, ?_⟩
  intro hzero
  apply List.ext_getElem (by simpa using htvlen)
  intro i hi hirep
  have hio : i < obs.length := by omega
  have := helem i hio
  rw [List.getD_eq_getElem?_getD, List.getElem?_eq_getElem hi, Option.getD_some] at this
  obtain ⟨z1, z2, z3, z4⟩ := hzero i
  simp [this, z1, z2, z3, z4]

/-- Witness for C8 at `obs = [1,2]` with a scalar and a vector source. -/
theorem total_var_spec_witness :
    ((UncSpec.scalar (1/2)).ok ([1, 2] : List ℚ).length ∧
      (UncSpec.vec [1, 3]).ok ([1, 2] : List ℚ).length ∧
      (UncSpec.scalar 0).ok ([1, 2] : List ℚ).length ∧
      (UncSpec.scalar 0).ok ([1, 2] : List ℚ).length) ∧
    (∃ tv, total_var [1, 2] (UncSpec.scalar (1/2)) (UncSpec.vec [1, 3])
        (UncSpec.scalar 0) (UncSpec.scalar 0) = some tv ∧
      tv.length = ([1, 2] : List ℚ).length ∧
      (∀ i, i < ([1, 2] : List ℚ).length →
        tv.getD i 0 = (([1, 2] : List ℚ).getD i 0 * (UncSpec.scalar (1/2)).at i) ^ 2
          + (([1, 2] : List ℚ).getD i 0 * (UncSpec.vec [1, 3]).at i) ^ 2
          + (([1, 2] : List ℚ).getD i 0 * (UncSpec.scalar 0).at i) ^ 2
          + (([1, 2] : List ℚ).getD i 0 * (UncSpec.scalar 0).at i) ^ 2) ∧
      ((∀ i, (UncSpec.scalar (1/2)).at i = 0 ∧ (UncSpec.vec [1, 3]).at i = 0 ∧
          (UncSpec.scalar 0).at i = 0 ∧ (UncSpec.scalar 0).at i = 0) →
        tv = List.replicate ([1, 2] : List ℚ).length 0)) :=
  ⟨⟨trivial, by decide, trivial, trivial⟩,
    total_var_spec [1, 2] (UncSpec.scalar (1/2)) (UncSpec.vec [1, 3])
      (UncSpec.scalar 0) (UncSpec.scalar 0) trivial (by decide) trivial trivial⟩

/-- Counterexample to C9 as stated: a length-1 uncertainty vector with a
length-2 observation is silently broadcast by numpy rather than rejected,
so construction succeeds and returns a total variance. -/
theorem total_var_broadcasts_length_one :
    total_var [1, 2] (UncSpec.vec [3]) (UncSpec.scalar 0) (UncSpec.scalar 0)
      (UncSpec.scalar 0) = some [9, 36] := by
  decide

/-- An uncertainty vector whose length is neither the observation length
nor 1 makes the source-variance computation fail. -/
theorem srcVariance_bad (obs vs : List ℚ)
    (h : vs.length ≠ obs.length) (h1 : vs.length ≠ 1) :
    srcVariance obs (UncSpec.vec vs) = none := by
  rw [srcVariance]
  have hob : ¬ obs.length = vs.length := fun hx => h hx.symm
  cases obs with
  | nil =>
      cases vs with
      | nil => simp at hob
      | cons v vs' =>
          cases vs' with
          | nil => simp at h1
          | cons v2 vs2 => simp [bcast1, hob]
  | cons o os =>
      cases os with
      | nil =>
          cases vs with
          | nil =>
              simp [bcast1, hob]
          | cons v vs' =>
              cases vs' with
              | nil => simp at h1
              | cons v2 vs2 => simp [bcast1, hob]
      | cons o2 os2 =>
          cases vs with
          | nil => simp [bcast1, hob]
          | cons v vs' =>
              cases vs' with
              | nil => simp at h1
              | cons v2 vs2 =>
                  simp [bcast1, hob]
                  intro heq
                  simp at h
                  omega

/-- Broadcasting fails when the lengths differ and neither is 1. -/
theorem bcast1_none {α β : Type} (f : α → α → β) {xs ys : List α}
    (h : xs.length ≠ ys.length) (hx : xs.length ≠ 1) (hy : ys.length ≠ 1) :
    bcast1 f xs ys = none := by
  cases xs with
  | nil =>
      cases ys with
      | nil => simp at h
      | cons y ys' =>
          cases ys' with
          | nil => simp at hy
          | cons y2 ys2 => rw [bcast1, if_neg h] <;> simp
  | cons x xs' =>
      cases xs' with
      | nil => simp at hx
      | cons x2 xs2 =>
          cases ys with
          | nil => rw [bcast1, if_neg h] <;> simp
          | cons y ys' =>
              cases ys' with
              | nil => simp at hy
              | cons y2 ys2 => rw [bcast1, if_neg h] <;> simp

/-- If any of the four source variances fails, the total variance fails. -/
theorem total_var_none (obs : List ℚ) (u1 u2 u3 u4 : UncSpec)
    (h : srcVariance obs u1 = none ∨ srcVariance obs u2 = none ∨
      srcVariance obs u3 = none ∨ srcVariance obs u4 = none) :
    total_var obs u1 u2 u3 u4 = none := by
  rw [total_var]
  rcases h with h | h | h | h <;>
    cases hA : srcVariance obs u1 <;> cases hB : srcVariance obs u3 <;>
      cases hC : srcVariance obs u2 <;> cases hD : srcVariance obs u4 <;>
        simp_all

/-- An uncertainty source whose vector length is neither the observation
length nor 1 (the silently-broadcast case). -/
def UncSpec.badFor (O : ℕ) (u : UncSpec) : Prop :=
  ∃ vs, u = UncSpec.vec vs ∧ vs.length ≠ O ∧ vs.length ≠ 1

/-- C9 (amended): construction fails fast when some uncertainty vector's
length is neither O nor 1 (a length-1 vector is silently broadcast instead
of rejected), and implausibility fails fast at call time when the
prediction length and the observation length differ with neither equal
to 1. -/
theorem shape_mismatch_fails (obs : List ℚ) (u1 u2 u3 u4 : UncSpec)
    (m o s : List FVal)
    (hbad : u1.badFor obs.length ∨ u2.badFor obs.length ∨
      u3.badFor obs.length ∨ u4.badFor obs.length)
    (hm : m.length ≠ o.length) (hm1 : m.length ≠ 1) (ho1 : o.length ≠ 1) :
    total_var obs u1 u2 u3 u4 = none ∧ calc_implausibility1 m o s = none := by
  constructor
  · apply total_var_none
    rcases hbad with ⟨vs, hu, hl, h1⟩ | ⟨vs, hu, hl, h1⟩ | ⟨vs, hu, hl, h1⟩ | ⟨vs, hu, hl, h1⟩
    · exact Or.inl (hu ▸ srcVariance_bad obs vs hl h1)
    · exact Or.inr (Or.inl (hu ▸ srcVariance_bad obs vs hl h1))
    · exact Or.inr (Or.inr (Or.inl (hu ▸ srcVariance_bad obs vs hl h1)))
    · exact Or.inr (Or.inr (Or.inr (hu ▸ srcVariance_bad obs vs hl h1)))
  · rw [calc_implausibility1, bcast1_none fsub hm hm1 ho1]
    rfl

/-- Witness for C9 (amended): a length-3 uncertainty vector with a length-2
observation, and a length-3 prediction against a length-2 observation. -/
theorem shape_mismatch_fails_witness :
    (((UncSpec.vec [3, 4, 5]).badFor ([1, 2] : List ℚ).length ∨
        (UncSpec.scalar 0).badFor ([1, 2] : List ℚ).length ∨
        (UncSpec.scalar 0).badFor ([1, 2] : List ℚ).length ∨
        (UncSpec.scalar 0).badFor ([1, 2] : List ℚ).length) ∧
      ([FVal.fin 1, FVal.fin 2, FVal.fin 3] : List FVal).length ≠ ([FVal.fin 1, FVal.fin 2] : List FVal).length ∧
      ([FVal.fin 1, FVal.fin 2, FVal.fin 3] : List FVal).length ≠ 1 ∧
      ([FVal.fin 1, FVal.fin 2] : List FVal).length ≠ 1) ∧
    (total_var [1, 2] (UncSpec.vec [3, 4, 5]) (UncSpec.scalar 0) (UncSpec.scalar 0)
        (UncSpec.scalar 0) = none ∧
      calc_implausibility1 [FVal.fin 1, FVal.fin 2, FVal.fin 3] [FVal.fin 1, FVal.fin 2] [] = none) :=
  ⟨⟨Or.inl ⟨[3, 4, 5], rfl, by decide, by decide⟩, by decide, by decide, by decide⟩,
    shape_mismatch_fails [1, 2] (UncSpec.vec [3, 4, 5]) (UncSpec.scalar 0)
      (UncSpec.scalar 0) (UncSpec.scalar 0) [FVal.fin 1, FVal.fin 2, FVal.fin 3]
      [FVal.fin 1, FVal.fin 2] []
      (Or.inl ⟨[3, 4, 5], rfl, by decide, by decide⟩) (by decide) (by decide) (by decide)⟩

/-- An always-accepting emulator with a single free parameter (`P = 1`):
prediction mean equals the observation and variance 1, so every draw
passes the constraint. -/
def oneParamModel : Model :=
  { n_params := 1, predictOne := fun _ => ([FVal.fin 1], [FVal.fin 1]) }

/-- C4 (failing input): with a one-parameter model whose draws are accepted,
`_tf_sample` still fails, because its accumulator `tf.zeros((0, 2))` and the
`tf.while_loop` shape invariant `TensorShape([None, 2])` hard-code 2
parameters: the accepted length-1 draw cannot be concatenated. -/
theorem tf_sample_hardcoded_width_fails :
    is_valid_sample oneParamModel [1] [1/2] 3 0 [0] = some true ∧
    tf_sample oneParamModel [1] (fun _ => [1/2]) 1 [0] 0 3 1 = none := by
  constructor
  · decide
  · decide

/-- `chunkAux` does not depend on the fuel, as long as it dominates the
list length. -/
theorem chunkAux_irrel {α : Type} (bs : ℕ) :
    ∀ (fuel fuel' : ℕ) (xs : List α), xs.length ≤ fuel → xs.length ≤ fuel' →
      chunkAux bs fuel xs = chunkAux bs fuel' xs := by
  intro fuel
  induction fuel with
  | zero =>
      intro fuel' xs h h'
      cases xs with
      | nil => cases fuel' <;> rfl
      | cons x xs' => simp at h
  | succ f ih =>
      intro fuel' xs h h'
      cases xs with
      | nil => cases fuel' <;> rfl
      | cons x xs' =>
          cases fuel' with
          | zero => simp at h'
          | succ f' =>
              rw [chunkAux, chunkAux]
              congr 1
              apply ih
              · have := List.length_drop (bs - 1) xs'
                simp at h ⊢
                omega
              · have := List.length_drop (bs - 1) xs'
                simp at h' ⊢
                omega

/-- The batching recurrence: the first chunk takes `batch_size` elements. -/
theorem chunk_cons {α : Type} (bs : ℕ) (x : α) (xs : List α) :
    chunk bs (x :: xs) = (x :: xs.take (bs - 1)) :: chunk bs (xs.drop (bs - 1)) := by
  rw [chunk, chunk, List.length_cons, chunkAux]
  congr 1
  apply chunkAux_irrel
  · simp
  · simp

/-- Batch size 1 yields singleton batches. -/
theorem chunk_one {α : Type} (xs : List α) : chunk 1 xs = xs.map (fun x => [x]) := by
  induction xs with
  | nil => rfl
  | cons x xs ih => rw [chunk_cons]; simp [ih]

/-- The per-sample pipeline: predict one sample, add the total variance to
the emulator variance, take the square root, and form `|mean - obs| / sd`. -/
def rowStep (model : Model) (obs : List ℚ) (total_variance : List ℚ)
    (x : List ℚ) : Option (List FVal) := do
  let s ← bcast1 fadd (model.predictOne x).2 (fvec total_variance)
  let d ← bcast1 fsub (model.predictOne x).1 (fvec obs)
  bcast1 fdiv (d.map fabs) (s.map fsqrt)

/-- `mapM` on a singleton list. -/
theorem mapM_singleton {α β : Type} (f : α → Option β) (a : α) :
    List.mapM f [a] = (f a).map (fun b => [b]) := by
  cases h : f a <;> simp [List.mapM, List.mapM.loop, h]

/-- A singleton list of rows is trivially rectangular. -/
theorem stackRect_singleton {α : Type} (r : List α) : stackRect [r] = some [r] := by
  simp [stackRect]

/-- 2-D broadcasting of two single-row matrices is 1-D broadcasting of the
rows. -/
theorem bcastMat_singleton {α β : Type} (f : α → α → β) (a b : List α) :
    bcastMat f [a] [b] = (bcast1 f a b).map (fun r => [r]) := by
  have h : bcastMat f [a] [b] = List.mapM (fun p => bcast1 f p.1 p.2) [(a, b)] := rfl
  rw [h, mapM_singleton]

/-- On a single-row batch, `batchStep` is the per-sample pipeline. -/
theorem batchStep_singleton (model : Model) (obs : List ℚ) (tv : List ℚ) (x : List ℚ) :
    batchStep model obs tv [x] = (rowStep model obs tv x).map (fun r => [r]) := by
  rw [batchStep, rowStep]
  simp only [List.map_cons, List.map_nil, stackRect_singleton, Option.some_bind,
    Option.bind_eq_bind, bcastMat_singleton]
  cases hS : bcast1 fadd (model.predictOne x).2 (fvec tv) with
  | none => simp
  | some s =>
      simp only [Option.map_some', Option.some_bind, List.map_cons, List.map_nil]
      rw [calc_implausibility]
      simp only [bcastMat_singleton, Option.bind_eq_bind]
      cases hD : bcast1 fsub (model.predictOne x).1 (fvec obs) with
      | none => simp
      | some d =>
          simp only [Option.map_some', Option.some_bind, List.map_cons, List.map_nil]
          cases hF : bcast1 fdiv (List.map fabs d) (List.map fsqrt s) with
          | none => simp [bcastMat_singleton, hF]
          | some r => simp [bcastMat_singleton, hF]

/-- The single-sample acceptance decision as a function of the per-sample
pipeline. -/
def rowValid (model : Model) (obs : List ℚ) (threshold tolerance : ℚ)
    (tv : List ℚ) (x : List ℚ) : Option Bool :=
  (rowStep model obs tv x).map
    (fun r => decide ((rowCountGT threshold r : ℚ) ≤ tolerance * (r.length : ℚ)))

/-- `is_valid_sample` computes exactly the single-sample acceptance. -/
theorem is_valid_sample_eq_rowValid (model : Model) (obs : List ℚ)
    (x : List ℚ) (threshold tolerance : ℚ) (tv : List ℚ) :
    is_valid_sample model obs x threshold tolerance tv
      = rowValid model obs threshold tolerance tv x := by
  rw [is_valid_sample, rowValid, batchStep_singleton]
  cases hR : rowStep model obs tv x with
  | none => rfl
  | some r => simp [constrain, ncols]

/-- `_tf_constrain` at batch size 1 evaluates the single-sample acceptance
on every row in order. -/
theorem tf_constrain_one (model : Model) (obs : List ℚ) (tv : List ℚ)
    (tolerance threshold : ℚ) (sp : List (List ℚ)) :
    tf_constrain model obs sp tv tolerance threshold 1
      = sp.mapM (rowValid model obs threshold tolerance tv) := by
  rw [tf_constrain]
  suffices h : ∀ (acc : List Bool),
      (chunk 1 sp).foldlM
        (fun acc data => do
          let implausibility ← batchStep model obs tv data
          pure (acc ++ constrain implausibility tolerance threshold)) acc
        = (sp.mapM (rowValid model obs threshold tolerance tv)).map (fun l => acc ++ l) by
    rw [h []]
    cases sp.mapM (rowValid model obs threshold tolerance tv) <;> simp
  induction sp with
  | nil => intro acc; simp [chunk, chunkAux, List.mapM, List.mapM.loop]
  | cons x xs ih =>
      intro acc
      rw [chunk_one] at ih ⊢
      simp only [List.map_cons, List.foldlM_cons, List.mapM_cons]
      rw [batchStep_singleton]
      cases hR : rowStep model obs tv x with
      | none => simp [rowValid, hR]
      | some r =>
          simp only [Option.map_some', Option.some_bind, Option.bind_eq_bind]
          have hc : constrain [r] tolerance threshold
              = [decide ((rowCountGT threshold r : ℚ) ≤ tolerance * (r.length : ℚ))] := by
            simp [constrain, ncols]
          rw [hc]
          simp only [Option.pure_def, Option.some_bind, Option.bind_eq_bind] at ih ⊢
          rw [ih (acc ++ [decide ((rowCountGT threshold r : ℚ) ≤ tolerance * (r.length : ℚ))])]
          simp only [rowValid, hR, Option.map_some', Option.some_bind, Option.bind_eq_bind]
          cases xs.mapM (rowValid model obs threshold tolerance tv) <;> simp

/-- Any draw returned by the retry loop was accepted by `is_valid_sample`. -/
theorem get_valid_sample_valid (model : Model) (obs : List ℚ) (dist : ℕ → List ℚ)
    (threshold tolerance : ℚ) (tv : List ℚ) :
    ∀ (fuel k : ℕ) (x : List ℚ) (k' : ℕ),
      get_valid_sample model obs dist threshold tolerance tv k fuel = some (x, k') →
      is_valid_sample model obs x threshold tolerance tv = some true := by
  intro fuel
  induction fuel with
  | zero => intro k x k' h; simp [get_valid_sample] at h
  | succ f ih =>
      intro k x k' h
      rw [get_valid_sample] at h
      cases hv : is_valid_sample model obs (dist k) threshold tolerance tv with
      | none => rw [hv] at h; simp at h
      | some b =>
          rw [hv] at h
          cases b with
          | true =>
              simp at h
              rw [← h.1]
              exact hv
          | false =>
              simp at h
              exact ih (k + 1) x k' h

/-- Every row emitted by the sampling loop was accepted. -/
theorem tf_sample_loop_valid (model : Model) (obs : List ℚ) (dist : ℕ → List ℚ)
    (tv : List ℚ) (tolerance threshold : ℚ) (fuel : ℕ) :
    ∀ (n k : ℕ) (acc res : List (List ℚ)),
      tf_sample_loop model obs dist tv tolerance threshold fuel n k acc = some res →
      (∀ x ∈ acc, is_valid_sample model obs x threshold tolerance tv = some true) →
      ∀ x ∈ res, is_valid_sample model obs x threshold tolerance tv = some true := by
  intro n
  induction n with
  | zero =>
      intro k acc res h hacc
      rw [tf_sample_loop] at h
      simp at h
      rw [← h]
      exact hacc
  | succ m ih =>
      intro k acc res h hacc
      rw [tf_sample_loop] at h
      cases hg : get_valid_sample model obs dist threshold tolerance tv k fuel with
      | none => rw [hg] at h; simp at h
      | some xk =>
          rw [hg] at h
          simp only [Option.bind_eq_bind, Option.some_bind] at h
          by_cases hl : xk.1.length = 2
          · rw [if_pos hl] at h
            refine ih xk.2 (acc ++ [xk.1]) res h ?_
            intro y hy
            rcases List.mem_append.mp hy with hy | hy
            · exact hacc y hy
            · rcases List.mem_singleton.mp hy with rfl
              exact get_valid_sample_valid model obs dist threshold tolerance tv fuel k xk.1 xk.2
                (by rw [← hg])
          · rw [if_neg hl] at h
            simp at h

/-- C3: every parameter matrix returned by the rejection sampler, re-run
through the batch implausibility-plus-constrain pipeline with the same
tolerance and threshold, is accepted in full. -/
theorem sample_round_trip (model : Model) (obs : List ℚ) (dist : ℕ → List ℚ)
    (n : ℕ) (tv : List ℚ) (tolerance threshold : ℚ) (fuel : ℕ) (res : List (List ℚ))
    (h : tf_sample model obs dist n tv tolerance threshold fuel = some res) :
    tf_constrain model obs res tv tolerance threshold 1
      = some (res.map (fun _ => true)) := by
  have hvalid : ∀ x ∈ res, is_valid_sample model obs x threshold tolerance tv = some true :=
    tf_sample_loop_valid model obs dist tv tolerance threshold fuel n 0 [] res h
      (by intro x hx; simp at hx)
  rw [tf_constrain_one]
  clear h
  induction res with
  | nil => rfl
  | cons x xs ih =>
      have hx : rowValid model obs threshold tolerance tv x = some true := by
        rw [← is_valid_sample_eq_rowValid]
        exact hvalid x (List.mem_cons_self x xs)
      have hxs := ih (fun y hy => hvalid y (List.mem_cons_of_mem x hy))
      simp only [List.mapM_cons, List.map_cons, hx, Option.some_bind, Option.bind_eq_bind,
        Option.pure_def]
      rw [hxs]
      rfl

/-- A two-parameter emulator whose predictions always pass the constraint
(the emulated mean equals the observation). -/
def twoParamModel : Model :=
  { n_params := 2, predictOne := fun _ => ([FVal.fin 1], [FVal.fin 0]) }

/-- Witness for C3: one sampled vector, re-checked by `_tf_constrain`. -/
theorem sample_round_trip_witness :
    (tf_sample twoParamModel [1] (fun _ => [1/2, 1/3]) 1 [0] 0 3 1 = some [[1/2, 1/3]]) ∧
    tf_constrain twoParamModel [1] [[1/2, 1/3]] [0] 0 3 1
      = some (([[1/2, 1/3]] : List (List ℚ)).map (fun _ => true)) :=
  ⟨by decide,
    sample_round_trip twoParamModel [1] (fun _ => [1/2, 1/3]) 1 [0] 0 3 1 [[1/2, 1/3]]
      (by decide)⟩

/-- Structural presentation of `List.mapM` over `Option`, used to reason
about the monadic pipelines. -/
def seqOpt {α β : Type} (f : α → Option β) : List α → Option (List β)
  | [] => some []
  | x :: t => (f x).bind (fun b => (seqOpt f t).map (fun bs => b :: bs))

/-- `List.mapM` over `Option` agrees with its structural presentation. -/
theorem mapM_eq_seqOpt {α β : Type} (f : α → Option β) :
    ∀ xs : List α, List.mapM f xs = seqOpt f xs := by
  intro xs
  rw [← List.mapM'_eq_mapM]
  induction xs with
  | nil => rfl
  | cons x t ih =>
      rw [List.mapM'_cons, seqOpt]
      cases hx : f x with
      | none => simp
      | some b =>
          simp only [Option.bind_eq_bind, Option.some_bind]
          rw [ih]
          cases seqOpt f t <;> simp

/-- Successful `seqOpt` preserves the length. -/
theorem seqOpt_length {α β : Type} (f : α → Option β) :
    ∀ {xs : List α} {ys : List β}, seqOpt f xs = some ys → ys.length = xs.length := by
  intro xs
  induction xs with
  | nil => intro ys h; rw [seqOpt] at h; cases h; rfl
  | cons x t ih =>
      intro ys h
      rw [seqOpt] at h
      cases hx : f x with
      | none => rw [hx] at h; simp at h
      | some b =>
          rw [hx] at h
          cases ht : seqOpt f t with
          | none => rw [ht] at h; simp at h
          | some bs =>
              rw [ht] at h
              simp only [Option.some_bind, Option.map_some', Option.some_inj] at h
              rw [← h]
              simp [ih ht]

/-- `seqOpt` after `map` fuses. -/
theorem seqOpt_map {α β γ : Type} (g : α → β) (f : β → Option γ) :
    ∀ (xs : List α), seqOpt f (xs.map g) = seqOpt (fun x => f (g x)) xs := by
  intro xs
  induction xs with
  | nil => rfl
  | cons x t ih => rw [List.map_cons, seqOpt, seqOpt, ih]

/-- `seqOpt` distributes over append. -/
theorem seqOpt_append {α β : Type} (f : α → Option β) :
    ∀ (xs ys : List α), seqOpt f (xs ++ ys)
      = (seqOpt f xs).bind (fun u => (seqOpt f ys).map (fun v => u ++ v)) := by
  intro xs ys
  induction xs with
  | nil =>
      rw [List.nil_append, seqOpt]
      cases seqOpt f ys <;> simp
  | cons x t ih =>
      rw [List.cons_append, seqOpt, seqOpt, ih]
      cases f x <;> cases seqOpt f t <;> cases seqOpt f ys <;> simp

/-- Stacking rows of a uniform width always succeeds. -/
theorem stackRect_uniform {α : Type} {rows : List (List α)} {W : ℕ}
    (h : ∀ r ∈ rows, r.length = W) : stackRect rows = some rows := by
  cases rows with
  | nil => rfl
  | cons r rs =>
      rw [stackRect, if_pos]
      rw [List.all_eq_true]
      intro s hs
      have h1 : s.length = W := h s (List.mem_cons_of_mem r hs)
      have h2 : r.length = W := h r (List.mem_cons_self r rs)
      simp [h1, h2]

/-- Broadcasting a matrix against a single row acts row by row. -/
theorem bcastMat_single_right {α β : Type} (f : α → α → β) (A : List (List α)) (t : List α) :
    bcastMat f A [t] = seqOpt (fun r => bcast1 f r t) A := by
  cases A with
  | nil => rfl
  | cons a as =>
      cases as with
      | nil =>
          have h : bcastMat f [a] [t] = List.mapM (fun p => bcast1 f p.1 p.2) [(a, t)] := rfl
          rw [h, mapM_eq_seqOpt, seqOpt, seqOpt]
          cases hbc : bcast1 f a t <;> simp [seqOpt, hbc]
      | cons a2 as2 =>
          have hne : ¬ ((a :: a2 :: as2).length = ([t] : List (List α)).length) := by simp
          have hrows : bcastRows (a :: a2 :: as2) ([t] : List (List α))
              = some ((a :: a2 :: as2).map (fun r => (r, t))) := by
            rw [bcastRows.eq_def, if_neg hne]
          rw [bcastMat, hrows, Option.some_bind, mapM_eq_seqOpt, seqOpt_map]

/-- Broadcasting two matrices with equal row counts zips the rows. -/
theorem bcastMat_eq_len {α β : Type} (f : α → α → β) {A B : List (List α)}
    (h : A.length = B.length) :
    bcastMat f A B = seqOpt (fun p => bcast1 f p.1 p.2) (A.zip B) := by
  have hrows : bcastRows A B = some (A.zip B) := by
    rw [bcastRows.eq_def, if_pos h]
  rw [bcastMat, hrows, Option.some_bind, mapM_eq_seqOpt]

/-- Two elementwise passes over the same list followed by a zipped
combination equal one pass combining per element (over `Option`). -/
theorem seqOpt_interchange {α β γ : Type} (F G : α → Option β) (H : β → β → Option γ) :
    ∀ xs : List α,
      (seqOpt F xs).bind (fun as => (seqOpt G xs).bind (fun bs =>
        seqOpt (fun p => H p.1 p.2) (bs.zip as)))
      = seqOpt (fun x => (F x).bind (fun a => (G x).bind (fun b => H b a))) xs := by
  intro xs
  induction xs with
  | nil => rfl
  | cons x t ih =>
      rw [seqOpt, seqOpt, seqOpt]
      cases hF : F x with
      | none => simp
      | some a =>
          cases hG : G x with
          | none => cases seqOpt F t <;> simp
          | some b =>
              cases hFt : seqOpt F t with
              | none =>
                  have ih' := ih
                  rw [hFt] at ih'
                  simp only [Option.none_bind] at ih'
                  rw [← ih']
                  cases H b a <;> simp
              | some as =>
                  cases hGt : seqOpt G t with
                  | none =>
                      have ih' := ih
                      rw [hFt, hGt] at ih'
                      simp only [Option.some_bind, Option.none_bind] at ih'
                      rw [← ih']
                      cases H b a <;> simp
                  | some bs =>
                      have ih' := ih
                      rw [hFt, hGt] at ih'
                      simp only [Option.some_bind] at ih'
                      rw [← ih']
                      cases hH : H b a <;>
                        simp [seqOpt, List.zip_cons_cons, hH, List.zip]

/-- Under the fixed-width emulator contract, a batch step is the sequence of
per-sample pipelines. -/
theorem batchStep_rowwise (model : Model) (obs tv : List ℚ) {W : ℕ}
    (hW : model.PredictsWidth W) (data : List (List ℚ)) :
    batchStep model obs tv data = seqOpt (rowStep model obs tv) data := by
  have hmw : ∀ r ∈ List.map (fun x => (model.predictOne x).1) data, r.length = W := by
    intro r hr
    rcases List.mem_map.mp hr with ⟨x, hx, rfl⟩
    exact (hW x).1
  have hvw : ∀ r ∈ List.map (fun x => (model.predictOne x).2) data, r.length = W := by
    intro r hr
    rcases List.mem_map.mp hr with ⟨x, hx, rfl⟩
    exact (hW x).2
  have hmean : stackRect (List.map (fun x => (model.predictOne x).1) data)
      = some (List.map (fun x => (model.predictOne x).1) data) :=
    stackRect_uniform hmw
  have hvar : stackRect (List.map (fun x => (model.predictOne x).2) data)
      = some (List.map (fun x => (model.predictOne x).2) data) :=
    stackRect_uniform hvw
  have hrow : rowStep model obs tv = fun x =>
      (bcast1 fadd (model.predictOne x).2 (fvec tv)).bind (fun s =>
        (bcast1 fsub (model.predictOne x).1 (fvec obs)).bind (fun d =>
          bcast1 fdiv (d.map fabs) (s.map fsqrt))) := by
    funext x
    rw [rowStep]
    rfl
  rw [batchStep, hrow]
  rw [← seqOpt_interchange (fun x => bcast1 fadd (model.predictOne x).2 (fvec tv))
        (fun x => bcast1 fsub (model.predictOne x).1 (fvec obs))
        (fun d s => bcast1 fdiv (d.map fabs) (s.map fsqrt)) data]
  simp only [List.map_map, Function.comp_def, hmean, hvar, Option.bind_eq_bind,
    Option.some_bind]
  rw [bcastMat_single_right, seqOpt_map]
  cases hS : seqOpt (fun x => bcast1 fadd (model.predictOne x).2 (fvec tv)) data with
  | none => rfl
  | some sums =>
      simp only [Option.some_bind]
      rw [calc_implausibility, bcastMat_single_right, seqOpt_map]
      cases hG : seqOpt (fun x => bcast1 fsub (model.predictOne x).1 (fvec obs)) data with
      | none => rfl
      | some diff =>
          simp only [Option.bind_eq_bind, Option.some_bind]
          have hlen : (diff.map (fun r => List.map fabs r)).length
              = (sums.map (fun r => List.map fsqrt r)).length := by
            simp [seqOpt_length _ hG, seqOpt_length _ hS]
          rw [bcastMat_eq_len _ hlen, List.zip_map, seqOpt_map]
          simp [Prod.map]

/-- The width produced by 1-D broadcasting, when compatible. -/
def bLen (a b : ℕ) : Option ℕ :=
  if a = b then some a
  else if a = 1 then some b
  else if b = 1 then some a
  else none

/-- A successful 1-D broadcast has the width computed by `bLen`. -/
theorem bcast1_length_eq {α β : Type} (f : α → α → β) :
    ∀ {xs ys : List α} {zs : List β}, bcast1 f xs ys = some zs →
      bLen xs.length ys.length = some zs.length := by
  intro xs ys zs h
  by_cases heq : xs.length = ys.length
  · rw [bcast1.eq_def, if_pos heq] at h
    cases h
    rw [bLen.eq_def, if_pos heq]
    simp [List.length_zipWith, heq]
  · rw [bcast1.eq_def, if_neg heq] at h
    cases xs with
    | nil =>
        cases ys with
        | nil => simp at heq
        | cons y ys' =>
            cases ys' with
            | nil =>
                cases h
                rw [bLen.eq_def, if_neg heq]
                simp
            | cons y2 ys2 => simp at h
    | cons x xs' =>
        cases xs' with
        | nil =>
            cases ys with
            | nil =>
                cases h
                rw [bLen.eq_def, if_neg heq]
                simp
            | cons y ys' =>
                cases ys' with
                | nil => simp at heq
                | cons y2 ys2 =>
                    cases h
                    rw [bLen.eq_def, if_neg heq]
                    simp
        | cons x2 xs2 =>
            cases ys with
            | nil => simp at h
            | cons y ys' =>
                cases ys' with
                | nil =>
                    cases h
                    rw [bLen.eq_def, if_neg heq]
                    have h1 : ¬ ((x :: x2 :: xs2).length = 1) := by simp
                    rw [if_neg h1]
                    simp
                | cons y2 ys2 => simp at h

/-- The implausibility-row width determined by the emulator width `W`, the
observation length `O` and the total-variance length `T`. -/
def outWidth (W O T : ℕ) : Option ℕ :=
  (bLen W T).bind (fun ws => (bLen W O).bind (fun wd => bLen wd ws))

/-- Every successful per-sample pipeline row has the width `outWidth`. -/
theorem rowStep_width (model : Model) (obs tv : List ℚ) {W : ℕ}
    (hW : model.PredictsWidth W) {x : List ℚ} {r : List FVal}
    (h : rowStep model obs tv x = some r) :
    outWidth W obs.length tv.length = some r.length := by
  rw [rowStep] at h
  cases hS : bcast1 fadd (model.predictOne x).2 (fvec tv) with
  | none => rw [hS] at h; simp at h
  | some s =>
      rw [hS] at h
      simp only [Option.bind_eq_bind, Option.some_bind] at h
      cases hD : bcast1 fsub (model.predictOne x).1 (fvec obs) with
      | none => rw [hD] at h; simp at h
      | some d =>
          rw [hD] at h
          simp only [Option.some_bind] at h
          have h1 : bLen W tv.length = some s.length := by
            have := bcast1_length_eq fadd hS
            rwa [(hW x).2, fvec, List.length_map] at this
          have h2 : bLen W obs.length = some d.length := by
            have := bcast1_length_eq fsub hD
            rwa [(hW x).1, fvec, List.length_map] at this
          have h3 : bLen d.length s.length = some r.length := by
            have := bcast1_length_eq fdiv h
            rwa [List.length_map, List.length_map] at this
          rw [outWidth, h1, Option.some_bind, h2, Option.some_bind, h3]

/-- Under the fixed-width emulator contract, `_tf_implausibility` computes
the per-sample pipeline on all rows followed by the width check — whatever
the batch size. -/
theorem tf_implausibility_canon (model : Model) (obs tv : List ℚ) {W : ℕ}
    (hW : model.PredictsWidth W) (bs : ℕ) (sp : List (List ℚ)) :
    tf_implausibility model obs sp tv bs
      = (seqOpt (rowStep model obs tv) sp).bind (fun imp =>
          if imp.all (fun r => r.length = obs.length) then some imp else none) := by
  have main : ∀ (n : ℕ) (sp : List (List ℚ)), sp.length ≤ n →
      ∀ (acc : List (List FVal)),
        List.foldlM (fun acc data => (batchStep model obs tv data).bind (fun imp =>
            if imp.all (fun r => r.length = obs.length) then some (acc ++ imp) else none))
          acc (chunk bs sp)
        = (seqOpt (rowStep model obs tv) sp).bind (fun imp =>
            if imp.all (fun r => r.length = obs.length) then some (acc ++ imp) else none) := by
    intro n
    induction n with
    | zero =>
        intro sp h acc
        have hnil : sp = [] := List.eq_nil_of_length_eq_zero (Nat.le_zero.mp h)
        subst hnil
        simp [chunk, chunkAux, seqOpt]
    | succ m ih =>
        intro sp h acc
        cases sp with
        | nil => simp [chunk, chunkAux, seqOpt]
        | cons x xs =>
            rw [chunk_cons, List.foldlM_cons]
            have hrest : (xs.drop (bs - 1)).length ≤ m := by
              have hd := List.length_drop (bs - 1) xs
              simp only [List.length_cons] at h
              omega
            have hsp : seqOpt (rowStep model obs tv) (x :: xs)
                = (seqOpt (rowStep model obs tv) (x :: xs.take (bs - 1))).bind
                    (fun u => (seqOpt (rowStep model obs tv) (xs.drop (bs - 1))).map
                      (fun v => u ++ v)) := by
              conv_lhs => rw [show x :: xs = (x :: xs.take (bs - 1)) ++ xs.drop (bs - 1) by
                rw [List.cons_append, List.take_append_drop]]
              exact seqOpt_append _ _ _
            rw [hsp, batchStep_rowwise model obs tv hW]
            cases hu : seqOpt (rowStep model obs tv) (x :: xs.take (bs - 1)) with
            | none => simp
            | some u =>
                simp only [Option.some_bind]
                by_cases hall : u.all (fun r => r.length = obs.length)
                · rw [if_pos hall]
                  simp only [Option.bind_eq_bind, Option.some_bind]
                  rw [ih _ hrest (acc ++ u)]
                  cases hv : seqOpt (rowStep model obs tv) (xs.drop (bs - 1)) with
                  | none => simp
                  | some v =>
                      simp only [Option.map_some', Option.some_bind, List.all_append, hall,
                        Bool.true_and]
                      by_cases hva : v.all (fun r => r.length = obs.length)
                      · rw [if_pos hva, if_pos hva]
                        simp [List.append_assoc]
                      · rw [if_neg hva, if_neg hva]
                · rw [if_neg hall]
                  simp only [Option.bind_eq_bind, Option.none_bind]
                  cases hv : seqOpt (rowStep model obs tv) (xs.drop (bs - 1)) with
                  | none => simp
                  | some v =>
                      simp only [Option.map_some', Option.some_bind, List.all_append, hall,
                        Bool.false_and, Bool.false_eq_true, if_false]
  rw [tf_implausibility]
  have h0 := main sp.length sp (le_refl _) []
  simp only [Option.bind_eq_bind, Option.pure_def] at h0 ⊢
  rw [h0]
  cases seqOpt (rowStep model obs tv) sp with
  | none => rfl
  | some imp =>
      simp only [Option.some_bind]
      by_cases hall : imp.all (fun r => r.length = obs.length)
      · rw [if_pos hall, if_pos hall, List.nil_append]
      · rw [if_neg hall, if_neg hall]

/-- Under the fixed-width emulator contract, `_tf_constrain` evaluates the
per-sample acceptance on all rows (with the common implausibility width as
the column count) — whatever the batch size. -/
theorem tf_constrain_canon (model : Model) (obs tv : List ℚ) (tolerance threshold : ℚ)
    {W : ℕ} (hW : model.PredictsWidth W) (bs : ℕ) (sp : List (List ℚ)) :
    tf_constrain model obs sp tv tolerance threshold bs
      = (seqOpt (rowStep model obs tv) sp).bind (fun imp =>
          some (imp.map (fun r => decide ((rowCountGT threshold r : ℚ)
            ≤ tolerance * (((outWidth W obs.length tv.length).getD 0 : ℕ) : ℚ))))) := by
  have main : ∀ (n : ℕ) (sp : List (List ℚ)), sp.length ≤ n →
      ∀ (acc : List Bool),
        List.foldlM (fun acc data => (batchStep model obs tv data).bind (fun imp =>
            some (acc ++ constrain imp tolerance threshold)))
          acc (chunk bs sp)
        = (seqOpt (rowStep model obs tv) sp).bind (fun imp =>
            some (acc ++ imp.map (fun r => decide ((rowCountGT threshold r : ℚ)
              ≤ tolerance * (((outWidth W obs.length tv.length).getD 0 : ℕ) : ℚ))))) := by
    intro n
    induction n with
    | zero =>
        intro sp h acc
        have hnil : sp = [] := List.eq_nil_of_length_eq_zero (Nat.le_zero.mp h)
        subst hnil
        simp [chunk, chunkAux, seqOpt]
    | succ m ih =>
        intro sp h acc
        cases sp with
        | nil => simp [chunk, chunkAux, seqOpt]
        | cons x xs =>
            rw [chunk_cons, List.foldlM_cons]
            have hrest : (xs.drop (bs - 1)).length ≤ m := by
              have hd := List.length_drop (bs - 1) xs
              simp only [List.length_cons] at h
              omega
            have hsp : seqOpt (rowStep model obs tv) (x :: xs)
                = (seqOpt (rowStep model obs tv) (x :: xs.take (bs - 1))).bind
                    (fun u => (seqOpt (rowStep model obs tv) (xs.drop (bs - 1))).map
                      (fun v => u ++ v)) := by
              conv_lhs => rw [show x :: xs = (x :: xs.take (bs - 1)) ++ xs.drop (bs - 1) by
                rw [List.cons_append, List.take_append_drop]]
              exact seqOpt_append _ _ _
            rw [hsp, batchStep_rowwise model obs tv hW]
            cases hu : seqOpt (rowStep model obs tv) (x :: xs.take (bs - 1)) with
            | none => simp
            | some u =>
                have hdec : ∃ u0 u', u = u0 :: u' ∧ rowStep model obs tv x = some u0 := by
                  rw [seqOpt] at hu
                  cases hx : rowStep model obs tv x with
                  | none => rw [hx] at hu; simp at hu
                  | some r0 =>
                      rw [hx] at hu
                      cases ht : seqOpt (rowStep model obs tv) (xs.take (bs - 1)) with
                      | none => rw [ht] at hu; simp at hu
                      | some rs =>
                          rw [ht] at hu
                          simp only [Option.some_bind, Option.map_some', Option.some_inj] at hu
                          exact ⟨r0, rs, hu.symm, rfl⟩
                obtain ⟨u0, u', rfl, hx0⟩ := hdec
                have how : (outWidth W obs.length tv.length).getD 0 = u0.length := by
                  rw [rowStep_width model obs tv hW hx0]
                  rfl
                have hcon : constrain (u0 :: u') tolerance threshold
                    = (u0 :: u').map (fun r => decide ((rowCountGT threshold r : ℚ)
                        ≤ tolerance * (((outWidth W obs.length tv.length).getD 0 : ℕ) : ℚ))) := by
                  rw [constrain]
                  simp only [ncols, List.headD_cons, how]
                simp only [Option.some_bind]
                rw [hcon]
                simp only [Option.bind_eq_bind, Option.some_bind]
                rw [ih _ hrest]
                cases hv : seqOpt (rowStep model obs tv) (xs.drop (bs - 1)) with
                | none => simp
                | some v =>
                    simp only [Option.map_some', Option.some_bind, Option.some_inj]
                    rw [List.map_append, List.append_assoc]
  rw [tf_constrain]
  have h0 := main sp.length sp (le_refl _) []
  simp only [Option.bind_eq_bind, Option.pure_def] at h0 ⊢
  rw [h0]
  cases seqOpt (rowStep model obs tv) sp with
  | none => rfl
  | some imp => simp

/-- C6: with a fixed-width emulator, the batched implausibility and
acceptance results do not depend on how the samples are partitioned into
batches (row order preserved; NaN entries compare structurally). -/
theorem batch_partition_invariance (model : Model) (obs tv : List ℚ)
    (tolerance threshold : ℚ) (sp : List (List ℚ)) (W : ℕ) (bs1 bs2 : ℕ)
    (hW : model.PredictsWidth W) (h1 : 1 ≤ bs1) (h2 : 1 ≤ bs2) :
    tf_implausibility model obs sp tv bs1 = tf_implausibility model obs sp tv bs2 ∧
    tf_constrain model obs sp tv tolerance threshold bs1
      = tf_constrain model obs sp tv tolerance threshold bs2 :=
  ⟨(tf_implausibility_canon model obs tv hW bs1 sp).trans
      (tf_implausibility_canon model obs tv hW bs2 sp).symm,
    (tf_constrain_canon model obs tv tolerance threshold hW bs1 sp).trans
      (tf_constrain_canon model obs tv tolerance threshold hW bs2 sp).symm⟩

/-- A fixed-width emulator used to witness the batch-invariance theorem. -/
def uniformModel : Model :=
  { n_params := 2, predictOne := fun _ => ([FVal.fin 1], [FVal.fin 0]) }

/-- The witness emulator has fixed output width 1. -/
theorem uniformModel_width : uniformModel.PredictsWidth 1 :=
  fun _ => ⟨rfl, rfl⟩

/-- Witness for C6 at three samples, batch sizes 1 and 2. -/
theorem batch_partition_invariance_witness :
    (uniformModel.PredictsWidth 1 ∧ 1 ≤ 1 ∧ 1 ≤ 2) ∧
    (tf_implausibility uniformModel [1] [[0, 0], [1, 1], [2, 2]] [0] 1
        = tf_implausibility uniformModel [1] [[0, 0], [1, 1], [2, 2]] [0] 2 ∧
      tf_constrain uniformModel [1] [[0, 0], [1, 1], [2, 2]] [0] 0 3 1
        = tf_constrain uniformModel [1] [[0, 0], [1, 1], [2, 2]] [0] 0 3 2) :=
  ⟨⟨uniformModel_width, le_refl 1, by norm_num⟩,
    batch_partition_invariance uniformModel [1] [0] 0 3 [[0, 0], [1, 1], [2, 2]] 1 1 2
      uniformModel_width (le_refl 1) (by norm_num)⟩
